import Mathlib

/-!
Shallow embedding of the placement and track-allocation core of the
TinyTapeout mux layout engine (source file `py/tt.py`), together with
theorems checking its natural-language specification.

The embedding covers:
 - `ModulePlacer` : `gen_grid`, `_site_suitable`, the three `_find_*`
   scan functions, `_place_module`, `_place_modules_group`, `place_modules`.
 - `Layout` pin helpers : `_ply_expand`, `_ply_distribute`, `_ply_finalize`.

Python integers are modelled by `ℤ` (grid cell coordinates, which the
source validates to be nonnegative, by `ℕ`); Python `//` and `%` are
`Int.fdiv` and `Int.fmod` (floor division, identical to Python for every
sign of the operands); Python sets of cells are `Finset (ℕ × ℕ)`;
`RuntimeError` and the `NameError` reachable in `_find_x_for_module`
are modelled by an explicit error type through `Except`.
-/

namespace TT

/-- Decidable equality of `Except` results, so that concrete runs of the
embedded functions can be checked by `decide`. -/
instance exceptDecEq {ε α : Type _} [DecidableEq ε] [DecidableEq α] :
    DecidableEq (Except ε α)
  | .error a, .error b =>
      if h : a = b then .isTrue (by rw [h])
      else .isFalse (by intro he; cases he; exact h rfl)
  | .error _, .ok _ => .isFalse (by intro h; cases h)
  | .ok _, .error _ => .isFalse (by intro h; cases h)
  | .ok a, .ok b =>
      if h : a = b then .isTrue (by rw [h])
      else .isFalse (by intro he; cases he; exact h rfl)

/-- Failure conditions of the engine: the `RuntimeError`s raised by the
source, plus the `NameError` that `_find_x_for_module` hits at line 239
(`return x, y` where no local or global `y` exists). -/
inductive Err where
  | nameErrorY
  | cannotPlace (name : String)
  | saturation
  | plyMismatch
  | invalidPly
  deriving DecidableEq, Repr

/-! ## Pin layout expansion (`Layout._ply_expand`) -/

/-- Width specifier of one pin-layout entry, mirroring the dynamic type
test of `_ply_expand`: Python `None` (scalar), `int` (bus), a 2-`tuple`
(offset sub-range), or anything else (rejected with
`RuntimeError("Invalid Pin Layout")`). -/
inductive WidthSpec where
  | scalar
  | bus (n : ℕ)
  | sub (o l : ℕ)
  | malformed
  deriving DecidableEq, Repr

/-- One pin-layout entry `(n, c)`: optional base name (`None` means a
skip/padding run) and width specifier. -/
abbrev PlyEntry := Option String × WidthSpec

/-- Expansion of a single `(n, c)` entry, following the branch structure
of `_ply_expand`: a scalar gives one slot; a bus of width `n` gives
indices `n-1 … 0` (Python `range(c-1, -1, -1)`); a sub-range `(o, l)`
gives indices `o+l-1 … o` (Python `range(c[0]+c[1]-1, c[0]-1, -1)`);
a `None` name yields that many placeholder slots instead. -/
def expandEntry : PlyEntry → Except Err (List (Option String))
  | (nm, .scalar) => .ok [nm]
  | (none, .bus k) => .ok (List.replicate k none)
  | (some nm, .bus k) =>
      .ok ((List.range k).reverse.map fun i => some (nm ++ "[" ++ toString i ++ "]"))
  | (none, .sub _ l) => .ok (List.replicate l none)
  | (some nm, .sub o l) =>
      .ok ((List.range l).reverse.map fun i => some (nm ++ "[" ++ toString (o + i) ++ "]"))
  | (_, .malformed) => .error .invalidPly

/-- `Layout._ply_expand`: the Python loop appends each entry expansion to
the accumulator `rv`, raising on the first malformed entry. -/
def ply_expand : List PlyEntry → Except Err (List (Option String))
  | [] => .ok []
  | e :: rest =>
      match expandEntry e with
      | .error er => .error er
      | .ok a =>
          match ply_expand rest with
          | .error er => .error er
          | .ok b => .ok (a ++ b)

/-- Total width of a pin layout (the number of slots its expansion
produces): 1 for a scalar, `n` for a bus, `l` for a sub-range. -/
def wWidth : WidthSpec → ℕ
  | .scalar => 1
  | .bus k => k
  | .sub _ l => l
  | .malformed => 0

/-- Total width `W` of a whole pin layout. -/
def plyWidth (ply : List PlyEntry) : ℕ :=
  (ply.map fun e => wWidth e.2).sum

/-! ## Pin/track finalization (`Layout._ply_finalize`) -/

/-- One insertion into a Python `dict` built by `dict([(k, v), ...])`:
a later pair with an existing key overwrites that key in place, a fresh
key is appended. -/
def dictAppend (d : List (String × ℤ)) (kv : String × ℤ) : List (String × ℤ) :=
  if d.any (fun p => p.1 == kv.1) then
    d.map fun p => if p.1 == kv.1 then kv else p
  else
    d ++ [kv]

/-- Python `dict(pairs)` as an association list in key insertion order. -/
def pyDict (l : List (String × ℤ)) : List (String × ℤ) :=
  l.foldl dictAppend []

/-- `Layout._ply_finalize`: raise on a length mismatch between the pin
list and the track list, otherwise build the dict of `(p, t)` pairs from
`zip(pins, tracks)` keeping only the non-`None` pins. -/
def ply_finalize (pins : List (Option String)) (tracks : List ℤ) :
    Except Err (List (String × ℤ)) :=
  if pins.length ≠ tracks.length then
    .error .plyMismatch
  else
    .ok (pyDict ((pins.zip tracks).filterMap fun pt => pt.1.map fun nm => (nm, pt.2)))

/-! ## Track distribution (`Layout._ply_distribute`) -/

/-- The starting point of the candidate track enumeration:
`p = (((start - t_offset) // t_pitch) * t_pitch) + t_offset`. -/
def track_base (t_offset t_pitch start : ℤ) : ℤ :=
  (start - t_offset).fdiv t_pitch * t_pitch + t_offset

/-- Number of iterations of the loop `while p < end: tracks.append(p);
p += t_pitch` starting at `track_base`: the least `k ≥ 0` with
`track_base + k * t_pitch ≥ end` (for a positive pitch, the ceiling of
`(end - track_base) / t_pitch`, clamped at zero). -/
def track_count (t_offset t_pitch start stop : ℤ) : ℕ :=
  ((stop - track_base t_offset t_pitch start + t_pitch - 1).fdiv t_pitch).toNat

/-- The candidate track list generated by `_ply_distribute` for the
interval `[start, stop)` on a routing grid `offset + k * pitch`. -/
def gen_tracks (t_offset t_pitch start stop : ℤ) : List ℤ :=
  (List.range (track_count t_offset t_pitch start stop)).map
    fun k : ℕ => track_base t_offset t_pitch start + (k : ℤ) * t_pitch

/-- Index sequence of the Python slice `l[i:j:k]` over a list of length
`len`: negative bounds count from the end, bounds are clamped, and the
indices advance by `k` (empty for `k = 0`, which Python would reject;
the source never reaches a slice with step 0). -/
def pySliceIdx (len i j k : ℤ) : List ℤ :=
  if 0 < k then
    let s := if i < 0 then max (len + i) 0 else min i len
    let t := if j < 0 then max (len + j) 0 else min j len
    (List.range ((t - s + k - 1).fdiv k).toNat).map fun u : ℕ => s + (u : ℤ) * k
  else if k < 0 then
    let s := if i < 0 then max (len + i) (-1) else min i (len - 1)
    let t := if j < 0 then max (len + j) (-1) else min j (len - 1)
    (List.range ((s - t + (-k) - 1).fdiv (-k)).toNat).map fun u : ℕ => s + (u : ℤ) * k
  else
    []

/-- Python slice `l[i:j:k]`. -/
def pySlice (l : List ℤ) (i j k : ℤ) : List ℤ :=
  (pySliceIdx (l.length) i j k).filterMap fun idx => l[idx.toNat]?

/-- `Layout._ply_distribute`: enumerate candidate tracks in `[start,
stop)`, compute the step by floor division when no positive step is
given, raise `saturation` when that step is zero, then return the
centered strided slice `tracks[i_start:i_end:step]`. -/
def ply_distribute (t_offset t_pitch : ℤ) (n_pins : ℕ) (start stop step : ℤ) :
    Except Err (List ℤ) :=
  let tracks := gen_tracks t_offset t_pitch start stop
  let step := if step ≤ 0 then ((tracks.length : ℤ) - 1).fdiv ((n_pins : ℤ) - 1) else step
  if step = 0 then
    .error .saturation
  else
    let tracks_needed := ((n_pins : ℤ) - 1) * step + 1
    let i_start := ((tracks.length : ℤ) - tracks_needed).fdiv 2
    let i_stop := i_start + tracks_needed
    .ok (pySlice tracks i_start i_stop step)

/-! ## Module placer (`ModulePlacer`) -/

/-- A module slot: name, optional fixed anchor, and size.  The source
validates `width ∈ {1,2,4,8}`, `height ∈ {1,2}`, and nonnegative
in-range fixed coordinates; coordinates are therefore modelled as `ℕ`. -/
structure ModuleSlot where
  name : String
  pos_x : Option ℕ
  pos_y : Option ℕ
  width : ℕ
  height : ℕ
  deriving DecidableEq, Repr

/-- `ModulePlacer.gen_grid`: the initial free set holds, for every row
`y < grid.y` and every `x < grid.x // 2`, the cells `(x, y)` and
`(x + 16, y)` (the right half starts at the hardcoded column 16). -/
def gen_grid (gx gy : ℕ) : Finset (ℕ × ℕ) :=
  (Finset.range gy).biUnion fun y =>
    (Finset.range (gx / 2)).biUnion fun x => {(x, y), (x + 16, y)}

/-- Placer state: the anchor → module table (`self.grid`, in insertion
order) and the free cell set (`self.grid_free`). -/
structure PlacerState where
  grid : List ((ℕ × ℕ) × ModuleSlot)
  grid_free : Finset (ℕ × ℕ)
  deriving DecidableEq

/-- `ModulePlacer._site_suitable`: all `width × height` covered cells are
free; a multi-height module must anchor on an odd row (`pos_y & 1 == 1`);
a multi-width module must not cross the half boundary
(`(pos_x ^ (pos_x + width - 1)) & 16 == 0`). -/
def site_suitable (free : Finset (ℕ × ℕ)) (m : ModuleSlot) (px py : ℕ) : Bool :=
  ((List.range m.height).all fun oy =>
    (List.range m.width).all fun ox => decide ((px + ox, py + oy) ∈ free))
  && (if 1 < m.height then py % 2 == 1 else true)
  && (if 1 < m.width then (px ^^^ (px + m.width - 1)) &&& 16 == 0 else true)

/-- Scan order of `_find_xy_for_module`: row-major over `y`, and inside
each row the left half `x < grid.x // 2` before the right half
`x + 16`. -/
def xyCandidates (gx gy : ℕ) : List (ℕ × ℕ) :=
  (List.range gy).flatMap fun y =>
    ((List.range (gx / 2)).map fun x => (x, y)) ++
    ((List.range (gx / 2)).map fun x => (x + 16, y))

/-- `ModulePlacer._find_xy_for_module`: first suitable site in scan
order, if any. -/
def find_xy_for_module (gx gy : ℕ) (free : Finset (ℕ × ℕ)) (m : ModuleSlot) :
    Option (ℕ × ℕ) :=
  (xyCandidates gx gy).find? fun c => site_suitable free m c.1 c.2

/-- `ModulePlacer._find_y_for_module`: scan `y` upward at the fixed
`pos_x`. -/
def find_y_for_module (gy : ℕ) (free : Finset (ℕ × ℕ)) (m : ModuleSlot) (px : ℕ) :
    Option (ℕ × ℕ) :=
  ((List.range gy).map fun y => (px, y)).find? fun c => site_suitable free m c.1 c.2

/-- `ModulePlacer._find_x_for_module`: the source scans the left half and
then the right half at the fixed `pos_y`, but its `return x, y` refers to
a variable `y` that is bound nowhere, so the very moment a suitable `x`
is found the function dies with a `NameError`; only the no-suitable-site
path (`return None, None`) is reachable. -/
def find_x_for_module (gx : ℕ) (free : Finset (ℕ × ℕ)) (m : ModuleSlot) (py : ℕ) :
    Except Err (Option (ℕ × ℕ)) :=
  if ((List.range (gx / 2)).any fun x => site_suitable free m x py) ||
     ((List.range (gx / 2)).any fun x => site_suitable free m (x + 16) py) then
    .error .nameErrorY
  else
    .ok none

/-- The cells covered by a module of size `w × h` anchored at
`(px, py)`. -/
def footprint (px py w h : ℕ) : Finset (ℕ × ℕ) :=
  (Finset.range w ×ˢ Finset.range h).image fun o => (px + o.1, py + o.2)

/-- `ModulePlacer._place_module`: resolve the anchor according to which
coordinates are fixed, fail when none is found, otherwise record the
module (with its position filled in) at its anchor and remove the
covered cells from the free set. -/
def place_module (gx gy : ℕ) (st : PlacerState) (m : ModuleSlot) :
    Except Err PlacerState :=
  let oxyE : Except Err (Option (ℕ × ℕ)) :=
    match m.pos_x, m.pos_y with
    | none, none => .ok (find_xy_for_module gx gy st.grid_free m)
    | none, some py => find_x_for_module gx st.grid_free m py
    | some px, none => .ok (find_y_for_module gy st.grid_free m px)
    | some px, some py =>
        .ok (if site_suitable st.grid_free m px py then some (px, py) else none)
  match oxyE with
  | .error e => .error e
  | .ok none => .error (.cannotPlace m.name)
  | .ok (some (x, y)) =>
      .ok ⟨st.grid ++ [((x, y), { m with pos_x := some x, pos_y := some y })],
           st.grid_free \ footprint x y m.width m.height⟩

/-- Python tuple comparison on the sort key `(height, width)`. -/
def keyLe (a b : ℕ × ℕ) : Bool :=
  a.1 < b.1 || (a.1 == b.1 && a.2 ≤ b.2)

/-- Stable insertion for a descending sort: a later module goes after
every already-placed module whose key is greater than or equal to its
own, exactly as Python `sorted(…, reverse=True)` orders ties. -/
def insertDesc (x : ModuleSlot) : List ModuleSlot → List ModuleSlot
  | [] => [x]
  | y :: ys =>
      if keyLe (x.height, x.width) (y.height, y.width) then y :: insertDesc x ys
      else x :: y :: ys

/-- `sorted(mods, key=lambda m: (m.height, m.width), reverse=True)`:
stable descending sort by `(height, width)`. -/
def sortDesc (l : List ModuleSlot) : List ModuleSlot :=
  l.foldl (fun acc x => insertDesc x acc) []

/-- Placement of a list of modules one by one, stopping at the first
failure (the loop body of `_place_modules_group`). -/
def place_list (gx gy : ℕ) : PlacerState → List ModuleSlot → Except Err PlacerState
  | st, [] => .ok st
  | st, m :: ms =>
      match place_module gx gy st m with
      | .error e => .error e
      | .ok st' => place_list gx gy st' ms

/-- `ModulePlacer._place_modules_group`: sort the group largest-first and
place its modules one by one. -/
def place_modules_group (gx gy : ℕ) (st : PlacerState) (mods : List ModuleSlot) :
    Except Err PlacerState :=
  place_list gx gy st (sortDesc mods)

/-- `ModulePlacer.place_modules` on a fresh grid: partition the modules
into fully fixed, semi fixed and free (keeping input order inside each
bucket) and place the buckets from most to least constrained. -/
def place_modules (gx gy : ℕ) (mods : List ModuleSlot) : Except Err PlacerState :=
  let full := mods.filter fun m => m.pos_x.isSome && m.pos_y.isSome
  let semi := mods.filter fun m =>
    (m.pos_x.isSome || m.pos_y.isSome) && !(m.pos_x.isSome && m.pos_y.isSome)
  let auto := mods.filter fun m => m.pos_x.isNone && m.pos_y.isNone
  let st0 : PlacerState := ⟨[], gen_grid gx gy⟩
  match place_modules_group gx gy st0 full with
  | .error e => .error e
  | .ok st1 =>
      match place_modules_group gx gy st1 semi with
      | .error e => .error e
      | .ok st2 => place_modules_group gx gy st2 auto

/-- Placement table of a run: module name and resolved anchor, in
placement order. -/
def placementTable (r : Except Err PlacerState) : Except Err (List (String × ℕ × ℕ)) :=
  r.map fun st => st.grid.map fun e => (e.2.name, e.1)

/-! ## Arithmetic facts about the candidate track enumeration -/

theorem track_base_eq {t_offset t_pitch start : ℤ} (hp : 0 < t_pitch) :
    track_base t_offset t_pitch start = start - (start - t_offset) % t_pitch := by
  unfold track_base
  rw [Int.fdiv_eq_ediv _ hp.le]
  linear_combination Int.ediv_add_emod (start - t_offset) t_pitch

theorem track_base_bounds {t_offset t_pitch start : ℤ} (hp : 0 < t_pitch) :
    start - t_pitch < track_base t_offset t_pitch start ∧
      track_base t_offset t_pitch start ≤ start := by
  rw [track_base_eq hp]
  have h2 := Int.emod_nonneg (start - t_offset) (ne_of_gt hp)
  have h3 := Int.emod_lt_of_pos (start - t_offset) hp
  constructor <;> linarith

theorem track_count_bounds {t_offset t_pitch start stop : ℤ} (hp : 0 < t_pitch) :
    stop ≤ track_base t_offset t_pitch start +
        (track_count t_offset t_pitch start stop : ℤ) * t_pitch ∧
      (1 ≤ track_count t_offset t_pitch start stop →
        track_base t_offset t_pitch start +
          ((track_count t_offset t_pitch start stop : ℤ) - 1) * t_pitch < stop) ∧
      (track_base t_offset t_pitch start < stop →
        1 ≤ track_count t_offset t_pitch start stop) := by
  unfold track_count
  set b := track_base t_offset t_pitch start with hb
  set N := stop - b + t_pitch - 1 with hN
  rw [Int.fdiv_eq_ediv _ hp.le]
  have h1 := Int.ediv_add_emod N t_pitch
  have h2 := Int.emod_nonneg N (ne_of_gt hp)
  have h3 := Int.emod_lt_of_pos N hp
  set q := N / t_pitch with hq
  set r := N % t_pitch with hr
  rcases le_or_lt q 0 with hq0 | hq0
  · have htn : q.toNat = 0 := Int.toNat_of_nonpos hq0
    rw [htn]
    have hqp : t_pitch * q ≤ 0 := by nlinarith
    refine ⟨by push_cast; linarith, ?_, ?_⟩
    · intro hc; omega
    · intro hbs
      exfalso
      have : t_pitch ≤ N := by linarith
      linarith
  · have htn : (q.toNat : ℤ) = q := Int.toNat_of_nonneg hq0.le
    have hqt : t_pitch * q = N - r := by linarith
    refine ⟨?_, ?_, ?_⟩
    · rw [htn]
      have : q * t_pitch = t_pitch * q := mul_comm _ _
      linarith
    · intro _
      rw [htn]
      have : (q - 1) * t_pitch = t_pitch * q - t_pitch := by ring
      linarith
    · omega

theorem gen_tracks_length {t_offset t_pitch start stop : ℤ} :
    (gen_tracks t_offset t_pitch start stop).length =
      track_count t_offset t_pitch start stop := by
  simp [gen_tracks]

theorem gen_tracks_getD {t_offset t_pitch start stop : ℤ} {k : ℕ}
    (hk : k < track_count t_offset t_pitch start stop) :
    (gen_tracks t_offset t_pitch start stop).getD k 0 =
      track_base t_offset t_pitch start + (k : ℤ) * t_pitch := by
  unfold gen_tracks
  rw [List.getD_eq_getElem?_getD, List.getElem?_map, List.getElem?_range hk]
  rfl

theorem gen_tracks_mem {t_offset t_pitch start stop x : ℤ} :
    x ∈ gen_tracks t_offset t_pitch start stop ↔
      ∃ k : ℕ, k < track_count t_offset t_pitch start stop ∧
        x = track_base t_offset t_pitch start + (k : ℤ) * t_pitch := by
  simp only [gen_tracks, List.mem_map, List.mem_range]
  constructor
  · rintro ⟨k, hk, rfl⟩; exact ⟨k, hk, rfl⟩
  · rintro ⟨k, hk, rfl⟩; exact ⟨k, hk, rfl⟩

/-! ## Facts about the Python slice model -/

theorem filterMap_eq_map_of_forall {α β : Type _} {f : α → Option β} {g : α → β}
    {l : List α} (h : ∀ a ∈ l, f a = some (g a)) : l.filterMap f = l.map g := by
  induction l with
  | nil => rfl
  | cons a l ih =>
      have ha := h a (List.mem_cons_self a l)
      simp [List.filterMap_cons, ha, ih fun b hb => h b (List.mem_cons_of_mem _ hb)]

theorem getD_map_range {g : ℕ → ℤ} {m t : ℕ} (h : t < m) :
    ((List.range m).map g).getD t 0 = g t := by
  rw [List.getD_eq_getElem?_getD, List.getElem?_map, List.getElem?_range h]
  rfl

theorem pySlice_eq_map {l : List ℤ} {i k : ℤ} {m : ℕ}
    (hk : 0 < k) (hi : 0 ≤ i) (hm : 1 ≤ m)
    (hub : i + ((m : ℤ) - 1) * k < l.length) :
    pySlice l i (i + ((m : ℤ) - 1) * k + 1) k =
      (List.range m).map fun t : ℕ => l.getD (i + (t : ℤ) * k).toNat 0 := by
  have hm1 : (0 : ℤ) ≤ (m : ℤ) - 1 := by
    have : (1 : ℤ) ≤ (m : ℤ) := by exact_mod_cast hm
    linarith
  have hmk : (0 : ℤ) ≤ ((m : ℤ) - 1) * k := mul_nonneg hm1 hk.le
  have hilen : i ≤ (l.length : ℤ) := by linarith
  have hjlen : i + ((m : ℤ) - 1) * k + 1 ≤ (l.length : ℤ) := by linarith
  simp only [pySlice, pySliceIdx]
  rw [if_pos hk, if_neg (by linarith : ¬ i + ((m : ℤ) - 1) * k + 1 < 0),
    if_neg (not_lt.mpr hi), min_eq_left hilen, min_eq_left hjlen]
  have hnum : i + ((m : ℤ) - 1) * k + 1 - i + k - 1 = (m : ℤ) * k := by ring
  rw [hnum, Int.fdiv_eq_ediv _ hk.le, Int.mul_ediv_cancel _ (ne_of_gt hk),
    Int.toNat_natCast, List.filterMap_map]
  refine filterMap_eq_map_of_forall fun u hu => ?_
  have hu' : (u : ℤ) ≤ (m : ℤ) - 1 := by
    have : u < m := List.mem_range.mp hu
    have : (u : ℤ) < (m : ℤ) := by exact_mod_cast this
    linarith
  have hidx : i + (u : ℤ) * k < (l.length : ℤ) := by
    have := mul_le_mul_of_nonneg_right hu' hk.le
    linarith
  have hidx0 : 0 ≤ i + (u : ℤ) * k := by positivity
  have hlt : (i + (u : ℤ) * k).toNat < l.length := (Int.toNat_lt hidx0).mpr hidx
  simp only [Function.comp]
  rw [List.getElem?_eq_getElem hlt, List.getD_eq_getElem l 0 hlt]

theorem pySlice_length_le {l : List ℤ} {i j k : ℤ} (hk : 0 < k) {n : ℕ}
    (hlen : (l.length : ℤ) ≤ (n : ℤ) * k) :
    (pySlice l i j k).length ≤ n := by
  have h1 : (pySlice l i j k).length ≤ (pySliceIdx (l.length) i j k).length :=
    List.length_filterMap_le _ _
  refine le_trans h1 ?_
  simp only [pySliceIdx]
  rw [if_pos hk, List.length_map, List.length_range]
  have hs0 : 0 ≤ (if i < 0 then max ((l.length : ℤ) + i) 0 else min i (l.length : ℤ)) := by
    split
    · exact le_max_right _ _
    · rename_i hi2
      exact le_min (not_lt.mp hi2) (by positivity)
  have ht0 : (if j < 0 then max ((l.length : ℤ) + j) 0 else min j (l.length : ℤ)) ≤
      (l.length : ℤ) := by
    split
    · rename_i hj
      exact max_le (by linarith) (by positivity)
    · exact min_le_right _ _
  rw [Int.fdiv_eq_ediv _ hk.le]
  have hq : ((if j < 0 then max ((l.length : ℤ) + j) 0 else min j (l.length : ℤ)) -
      (if i < 0 then max ((l.length : ℤ) + i) 0 else min i (l.length : ℤ)) + k - 1) ≤
      k - 1 + (n : ℤ) * k := by linarith
  have h2 := Int.ediv_le_ediv hk hq
  have h3 : (k - 1 + (n : ℤ) * k) / k = (n : ℤ) := by
    rw [Int.add_mul_ediv_right _ _ (ne_of_gt hk),
      Int.ediv_eq_zero_of_lt (by linarith) (by linarith), zero_add]
  rw [h3] at h2
  exact Int.toNat_le.mpr h2

/-! ## Facts about the placer -/

theorem site_suitable_free {free : Finset (ℕ × ℕ)} {m : ModuleSlot} {px py : ℕ}
    (h : site_suitable free m px py = true) :
    footprint px py m.width m.height ⊆ free := by
  intro c hc
  simp only [footprint, Finset.mem_image, Finset.mem_product, Finset.mem_range] at hc
  obtain ⟨⟨ox, oy⟩, ⟨hox, hoy⟩, rfl⟩ := hc
  simp only [site_suitable, Bool.and_eq_true, List.all_eq_true, List.mem_range,
    decide_eq_true_eq] at h
  exact h.1.1 oy hoy ox hox

theorem site_suitable_odd {free : Finset (ℕ × ℕ)} {m : ModuleSlot} {px py : ℕ}
    (h : site_suitable free m px py = true) (hh : 1 < m.height) : py % 2 = 1 := by
  simp only [site_suitable, Bool.and_eq_true] at h
  have h2 := h.1.2
  rw [if_pos hh] at h2
  simpa using h2

theorem find_xy_suitable {gx gy : ℕ} {free : Finset (ℕ × ℕ)} {m : ModuleSlot}
    {c : ℕ × ℕ} (h : find_xy_for_module gx gy free m = some c) :
    site_suitable free m c.1 c.2 = true := by
  have h2 := List.find?_some h
  exact h2

theorem find_y_suitable {gy : ℕ} {free : Finset (ℕ × ℕ)} {m : ModuleSlot} {px : ℕ}
    {c : ℕ × ℕ} (h : find_y_for_module gy free m px = some c) :
    site_suitable free m c.1 c.2 = true := by
  have h2 := List.find?_some h
  exact h2

theorem place_module_ok {gx gy : ℕ} {st st' : PlacerState} {m : ModuleSlot}
    (h : place_module gx gy st m = .ok st') :
    ∃ x y, site_suitable st.grid_free m x y = true ∧
      st'.grid = st.grid ++ [((x, y), { m with pos_x := some x, pos_y := some y })] ∧
      st'.grid_free = st.grid_free \ footprint x y m.width m.height := by
  rcases hmx : m.pos_x with _ | px <;> rcases hmy : m.pos_y with _ | py
  · simp only [place_module, hmx, hmy] at h
    rcases hfind : find_xy_for_module gx gy st.grid_free m with _ | ⟨x, y⟩ <;>
      rw [hfind] at h
    · simp at h
    · simp only [Except.ok.injEq] at h
      exact ⟨x, y, find_xy_suitable hfind, by rw [← h], by rw [← h]⟩
  · simp only [place_module, hmx, hmy] at h
    by_cases hc : (((List.range (gx / 2)).any fun x => site_suitable st.grid_free m x py) ||
        ((List.range (gx / 2)).any fun x => site_suitable st.grid_free m (x + 16) py)) = true
    · simp [find_x_for_module, hc] at h
    · simp only [find_x_for_module, Bool.not_eq_true] at hc
      simp [find_x_for_module, hc] at h
  · simp only [place_module, hmx, hmy] at h
    rcases hfind : find_y_for_module gy st.grid_free m px with _ | ⟨x, y⟩ <;>
      rw [hfind] at h
    · simp at h
    · simp only [Except.ok.injEq] at h
      exact ⟨x, y, find_y_suitable hfind, by rw [← h], by rw [← h]⟩
  · simp only [place_module, hmx, hmy] at h
    by_cases hs : site_suitable st.grid_free m px py = true
    · rw [if_pos hs] at h
      simp only [Except.ok.injEq] at h
      exact ⟨px, py, hs, by rw [← h], by rw [← h]⟩
    · rw [if_neg hs] at h
      simp at h

/-- Cell footprint of one entry of the anchor → module table. -/
def entryFp (e : (ℕ × ℕ) × ModuleSlot) : Finset (ℕ × ℕ) :=
  footprint e.1.1 e.1.2 e.2.width e.2.height

/-- Invariant maintained by successive placements: the free set stays
inside the initial cell set; every recorded footprint is inside the
initial cell set, misses the current free set, and anchors multi-height
modules on odd rows; and recorded footprints are pairwise disjoint. -/
def PlacerInv (init : Finset (ℕ × ℕ)) (st : PlacerState) : Prop :=
  st.grid_free ⊆ init ∧
  (∀ e ∈ st.grid, entryFp e ⊆ init ∧ Disjoint (entryFp e) st.grid_free ∧
    (1 < e.2.height → e.1.2 % 2 = 1)) ∧
  st.grid.Pairwise fun a b => Disjoint (entryFp a) (entryFp b)

theorem place_module_inv {gx gy : ℕ} {init : Finset (ℕ × ℕ)} {st st' : PlacerState}
    {m : ModuleSlot} (hinv : PlacerInv init st)
    (h : place_module gx gy st m = .ok st') : PlacerInv init st' := by
  obtain ⟨x, y, hsuit, hgrid, hfree⟩ := place_module_ok h
  have hfp : footprint x y m.width m.height ⊆ st.grid_free := site_suitable_free hsuit
  obtain ⟨hfr, hent, hpw⟩ := hinv
  have hnewfp : entryFp ((x, y), { m with pos_x := some x, pos_y := some y }) =
      footprint x y m.width m.height := rfl
  refine ⟨?_, ?_, ?_⟩
  · rw [hfree]
    exact subset_trans Finset.sdiff_subset hfr
  · intro e he
    rw [hgrid] at he
    rcases List.mem_append.mp he with hold | hnew
    · obtain ⟨h1, h2, h3⟩ := hent e hold
      refine ⟨h1, ?_, h3⟩
      rw [hfree]
      exact Disjoint.mono_right Finset.sdiff_subset h2
    · have he' : e = ((x, y), { m with pos_x := some x, pos_y := some y }) := by
        simpa using hnew
      subst he'
      refine ⟨hnewfp ▸ subset_trans hfp hfr, ?_, ?_⟩
      · rw [hfree, hnewfp]
        exact Finset.sdiff_disjoint.symm
      · intro hh
        exact site_suitable_odd hsuit hh
  · rw [hgrid, List.pairwise_append]
    refine ⟨hpw, List.pairwise_singleton _ _, ?_⟩
    intro a ha b hb
    have hb' : b = ((x, y), { m with pos_x := some x, pos_y := some y }) := by
      simpa using hb
    subst hb'
    rw [hnewfp]
    obtain ⟨_, h2, _⟩ := hent a ha
    exact Disjoint.mono_right hfp h2

theorem place_list_inv {gx gy : ℕ} {init : Finset (ℕ × ℕ)} :
    ∀ {mods : List ModuleSlot} {st st' : PlacerState},
      PlacerInv init st → place_list gx gy st mods = .ok st' → PlacerInv init st' := by
  intro mods
  induction mods with
  | nil =>
      intro st st' hinv h
      simp only [place_list] at h
      cases h
      exact hinv
  | cons m ms ih =>
      intro st st' hinv h
      simp only [place_list] at h
      cases hpm : place_module gx gy st m with
      | error e => simp [hpm] at h
      | ok st1 =>
          rw [hpm] at h
          exact ih (place_module_inv hinv hpm) h

theorem place_group_inv {gx gy : ℕ} {init : Finset (ℕ × ℕ)} {st st' : PlacerState}
    {mods : List ModuleSlot} (hinv : PlacerInv init st)
    (h : place_modules_group gx gy st mods = .ok st') : PlacerInv init st' :=
  place_list_inv hinv h

theorem place_modules_inv {gx gy : ℕ} {mods : List ModuleSlot} {st' : PlacerState}
    (h : place_modules gx gy mods = .ok st') : PlacerInv (gen_grid gx gy) st' := by
  have h0 : PlacerInv (gen_grid gx gy) ⟨[], gen_grid gx gy⟩ :=
    ⟨Finset.Subset.refl _, by simp, List.Pairwise.nil⟩
  simp only [place_modules] at h
  split at h
  · cases h
  · rename_i st1 hg1
    split at h
    · cases h
    · rename_i st2 hg2
      exact place_group_inv (place_group_inv (place_group_inv h0 hg1) hg2) h

/-! ## Facts about expansion and finalization -/

theorem expandEntry_length {e : PlyEntry} {a : List (Option String)}
    (h : expandEntry e = .ok a) : a.length = wWidth e.2 := by
  obtain ⟨nm, w⟩ := e
  cases w <;> cases nm <;> simp only [expandEntry] at h <;> cases h <;>
    simp [wWidth]

theorem ply_expand_length :
    ∀ {ply : List PlyEntry} {pins : List (Option String)},
      ply_expand ply = .ok pins → pins.length = plyWidth ply := by
  intro ply
  induction ply with
  | nil =>
      intro pins h
      simp only [ply_expand] at h
      cases h
      simp [plyWidth]
  | cons e rest ih =>
      intro pins h
      simp only [ply_expand] at h
      cases hee : expandEntry e with
      | error er => simp [hee] at h
      | ok a =>
          rw [hee] at h
          cases hrest : ply_expand rest with
          | error er => simp [hrest] at h
          | ok b =>
              rw [hrest] at h
              simp only [Except.ok.injEq] at h
              subst h
              simp [plyWidth, expandEntry_length hee, ih hrest]

theorem pyDict_aux :
    ∀ (l d : List (String × ℤ)), ((d ++ l).map Prod.fst).Nodup →
      l.foldl dictAppend d = d ++ l := by
  intro l
  induction l with
  | nil =>
      intro d _
      simp
  | cons kv rest ih =>
      intro d hnd
      have hkey : kv.1 ∉ d.map Prod.fst := by
        rw [List.map_append] at hnd
        rcases List.nodup_append.mp hnd with ⟨_, _, hdisj⟩
        intro hmem
        exact hdisj hmem (by simp)
      have hany : (d.any fun p => p.1 == kv.1) = false := by
        rw [List.any_eq_false]
        intro p hp hbeq
        exact hkey (List.mem_map.mpr ⟨p, hp, beq_iff_eq.mp hbeq⟩)
      have happ : dictAppend d kv = d ++ [kv] := by
        simp [dictAppend, hany]
      rw [List.foldl_cons, happ]
      have hassoc : d ++ kv :: rest = (d ++ [kv]) ++ rest := by simp
      rw [hassoc] at hnd
      have := ih (d ++ [kv]) hnd
      rw [this, ← hassoc]

theorem pyDict_eq_self {l : List (String × ℤ)} (h : (l.map Prod.fst).Nodup) :
    pyDict l = l := by
  have := pyDict_aux l [] (by simpa using h)
  simpa [pyDict] using this

theorem zip_filterMap_keys :
    ∀ (pins : List (Option String)) (tracks : List ℤ),
      pins.length = tracks.length →
      ((pins.zip tracks).filterMap fun pt => pt.1.map fun nm => (nm, pt.2)).map
          Prod.fst = pins.filterMap id := by
  intro pins
  induction pins with
  | nil =>
      intro tracks _
      simp
  | cons p ps ih =>
      intro tracks h
      cases tracks with
      | nil => simp at h
      | cons t ts =>
          have h' : ps.length = ts.length := by simpa using h
          cases p with
          | none => simpa using ih ts h'
          | some nm => simp [ih ts h']

theorem filterMap_id_length :
    ∀ (pins : List (Option String)),
      (pins.filterMap id).length + pins.count none = pins.length := by
  intro pins
  induction pins with
  | nil => rfl
  | cons p ps ih =>
      cases p with
      | none =>
          have h1 : (List.filterMap id (none :: ps)).length =
              (List.filterMap id ps).length := by simp
          have h2 : (none :: ps).count none = ps.count none + 1 := by
            simp [List.count_cons]
          rw [h1, h2, List.length_cons]
          omega
      | some nm =>
          have h1 : (List.filterMap id (some nm :: ps)).length =
              (List.filterMap id ps).length + 1 := by simp
          have h2 : (some nm :: ps).count none = ps.count none := by
            simp [List.count_cons]
          rw [h1, h2, List.length_cons]
          omega

theorem ply_distribute_eq_ok {t_offset t_pitch : ℤ} {n : ℕ} {start stop : ℤ} {st : ℤ}
    (hst : st = (((gen_tracks t_offset t_pitch start stop).length : ℤ) - 1).fdiv
      ((n : ℤ) - 1))
    (hne : st ≠ 0) :
    ply_distribute t_offset t_pitch n start stop 0 =
      .ok (pySlice (gen_tracks t_offset t_pitch start stop)
        ((((gen_tracks t_offset t_pitch start stop).length : ℤ) -
          (((n : ℤ) - 1) * st + 1)).fdiv 2)
        ((((gen_tracks t_offset t_pitch start stop).length : ℤ) -
          (((n : ℤ) - 1) * st + 1)).fdiv 2 + (((n : ℤ) - 1) * st + 1))
        st) := by
  subst hst
  simp only [ply_distribute]
  rw [if_pos (le_refl (0 : ℤ)), if_neg hne]

/-- C2 (amended): for every distribution call with `pin_count ≥ 2`,
positive pitch and a feasible computed step, the returned track list has
exactly `pin_count` entries, is strictly increasing, every coordinate
lies in `(start − pitch, end)` (the first track may fall up to one pitch
below `start`), and the window midpoint lies below the interval midpoint
by less than 1.5 pitch (sum of first and last track within
`(start + end − 3·pitch, start + end)`). -/
theorem c2_distribution :
    ∀ (t_offset t_pitch : ℤ) (n : ℕ) (start stop : ℤ),
      0 < t_pitch → 2 ≤ n →
      1 ≤ (((gen_tracks t_offset t_pitch start stop).length : ℤ) - 1).fdiv
        ((n : ℤ) - 1) →
      ∃ l, ply_distribute t_offset t_pitch n start stop 0 = .ok l ∧
        l.length = n ∧ l.Pairwise (· < ·) ∧
        (∀ c ∈ l, start - t_pitch < c ∧ c < stop) ∧
        start + stop - 3 * t_pitch < l.getD 0 0 + l.getD (n - 1) 0 ∧
        l.getD 0 0 + l.getD (n - 1) 0 < start + stop := by
  intro t_offset t_pitch n start stop hp hn hfeas
  have hn2 : (2 : ℤ) ≤ (n : ℤ) := by exact_mod_cast hn
  have hne : (((gen_tracks t_offset t_pitch start stop).length : ℤ) - 1).fdiv
      ((n : ℤ) - 1) ≠ 0 := by
    intro h0
    rw [h0] at hfeas
    norm_num at hfeas
  have hok := ply_distribute_eq_ok rfl hne
  have hcb := @track_count_bounds t_offset t_pitch start stop hp
  rw [← gen_tracks_length] at hcb
  have hbb := @track_base_bounds t_offset t_pitch start hp
  set b := track_base t_offset t_pitch start with hbdef
  set N := (gen_tracks t_offset t_pitch start stop).length with hNdef
  set st := ((N : ℤ) - 1).fdiv ((n : ℤ) - 1) with hstdef
  set needed := ((n : ℤ) - 1) * st + 1 with hneeddef
  set i := ((N : ℤ) - needed).fdiv 2 with hidef
  have hst1 : 1 ≤ st := hfeas
  have hstE : st = ((N : ℤ) - 1) / ((n : ℤ) - 1) := by
    rw [hstdef, Int.fdiv_eq_ediv _ (by linarith)]
  have hdiv := Int.ediv_add_emod ((N : ℤ) - 1) ((n : ℤ) - 1)
  have hmod0 := Int.emod_nonneg ((N : ℤ) - 1) (by linarith : ((n : ℤ) - 1) ≠ 0)
  have hmul : ((n : ℤ) - 1) * st ≤ (N : ℤ) - 1 := by
    rw [hstE]
    linarith
  have hneedN : needed ≤ (N : ℤ) := by
    rw [hneeddef]
    linarith
  have hneed1 : 1 ≤ needed := by
    rw [hneeddef]
    nlinarith
  have hiE : i = ((N : ℤ) - needed) / 2 := by
    rw [hidef, Int.fdiv_eq_ediv _ (by norm_num)]
  have hi0 : 0 ≤ i := by
    rw [hiE]
    exact Int.ediv_nonneg (by linarith) (by norm_num)
  have h2i : 2 * i ≤ (N : ℤ) - needed ∧ (N : ℤ) - needed ≤ 2 * i + 1 := by
    rw [hiE]
    omega
  have hub : i + ((n : ℤ) - 1) * st < (N : ℤ) := by
    have h1 := h2i.1
    rw [hneeddef] at h1 hneedN
    linarith
  have hRmap : pySlice (gen_tracks t_offset t_pitch start stop) i (i + needed) st =
      (List.range n).map fun t : ℕ =>
        (gen_tracks t_offset t_pitch start stop).getD (i + (t : ℤ) * st).toNat 0 := by
    have hj : i + needed = i + ((n : ℤ) - 1) * st + 1 := by
      rw [hneeddef]
      ring
    rw [hj]
    have hub' : i + ((n : ℤ) - 1) * st <
        ((gen_tracks t_offset t_pitch start stop).length : ℤ) := by
      rw [← hNdef]
      exact hub
    exact pySlice_eq_map (by linarith) hi0 (by omega) hub'
  have helem : ∀ t : ℕ, t < n →
      (gen_tracks t_offset t_pitch start stop).getD (i + (t : ℤ) * st).toNat 0 =
        b + (i + (t : ℤ) * st) * t_pitch := by
    intro t ht
    have htz : (t : ℤ) ≤ (n : ℤ) - 1 := by
      have : (t : ℤ) < (n : ℤ) := by exact_mod_cast ht
      linarith
    have hidx0 : 0 ≤ i + (t : ℤ) * st :=
      add_nonneg hi0 (mul_nonneg (by positivity) (by linarith))
    have hmulle : (t : ℤ) * st ≤ ((n : ℤ) - 1) * st :=
      mul_le_mul_of_nonneg_right htz (by linarith)
    have hidxlt : i + (t : ℤ) * st < (N : ℤ) := by linarith
    have hklt : (i + (t : ℤ) * st).toNat < track_count t_offset t_pitch start stop := by
      rw [← gen_tracks_length, ← hNdef]
      exact (Int.toNat_lt hidx0).mpr hidxlt
    have hgd := @gen_tracks_getD t_offset t_pitch start stop
      ((i + (t : ℤ) * st).toNat) hklt
    rw [hgd, Int.toNat_of_nonneg hidx0, ← hbdef]
  have hN1 : 1 ≤ N := by
    have : (1 : ℤ) ≤ (N : ℤ) := by linarith
    exact_mod_cast this
  have hAlt : b + ((N : ℤ) - 1) * t_pitch < stop := hcb.2.1 hN1
  have hAge : stop ≤ b + (N : ℤ) * t_pitch := hcb.1
  refine ⟨_, hok, ?_, ?_, ?_, ?_, ?_⟩
  · rw [hRmap]
    simp
  · rw [hRmap, List.pairwise_iff_getElem]
    intro a c ha hc hac
    simp only [List.length_map, List.length_range] at ha hc
    have hga : (List.map (fun t : ℕ =>
        (gen_tracks t_offset t_pitch start stop).getD (i + (t : ℤ) * st).toNat 0)
        (List.range n))[a] =
        (gen_tracks t_offset t_pitch start stop).getD (i + (a : ℤ) * st).toNat 0 := by
      rw [List.getElem_map, List.getElem_range]
    have hgc : (List.map (fun t : ℕ =>
        (gen_tracks t_offset t_pitch start stop).getD (i + (t : ℤ) * st).toNat 0)
        (List.range n))[c] =
        (gen_tracks t_offset t_pitch start stop).getD (i + (c : ℤ) * st).toNat 0 := by
      rw [List.getElem_map, List.getElem_range]
    rw [hga, hgc, helem a ha, helem c hc]
    have hac' : (a : ℤ) + 1 ≤ (c : ℤ) := by exact_mod_cast hac
    have hmm := mul_le_mul_of_nonneg_right hac' (show (0 : ℤ) ≤ st by linarith)
    have hlt : i + (a : ℤ) * st < i + (c : ℤ) * st := by nlinarith
    have := mul_lt_mul_of_pos_right hlt hp
    linarith
  · rw [hRmap]
    intro c hc
    obtain ⟨t, htmem, rfl⟩ := List.mem_map.mp hc
    have ht : t < n := List.mem_range.mp htmem
    rw [helem t ht]
    have htz : (t : ℤ) ≤ (n : ℤ) - 1 := by
      have : (t : ℤ) < (n : ℤ) := by exact_mod_cast ht
      linarith
    have hidx0 : 0 ≤ i + (t : ℤ) * st :=
      add_nonneg hi0 (mul_nonneg (by positivity) (by linarith))
    have hmulle : (t : ℤ) * st ≤ ((n : ℤ) - 1) * st :=
      mul_le_mul_of_nonneg_right htz (by linarith)
    have hidxle : i + (t : ℤ) * st ≤ (N : ℤ) - 1 := by linarith
    constructor
    · have hnn : 0 ≤ (i + (t : ℤ) * st) * t_pitch := mul_nonneg hidx0 hp.le
      linarith [hbb.1]
    · have := mul_le_mul_of_nonneg_right hidxle hp.le
      linarith
  · have hg0 : (pySlice (gen_tracks t_offset t_pitch start stop) i (i + needed)
        st).getD 0 0 = b + i * t_pitch := by
      rw [hRmap, getD_map_range (by omega : 0 < n), helem 0 (by omega)]
      norm_num
    have hgl : (pySlice (gen_tracks t_offset t_pitch start stop) i (i + needed)
        st).getD (n - 1) 0 = b + (i + ((n : ℤ) - 1) * st) * t_pitch := by
      rw [hRmap, getD_map_range (by omega : n - 1 < n), helem (n - 1) (by omega)]
      congr 3
      push_cast [Nat.cast_sub (by omega : 1 ≤ n)]
      ring
    rw [hg0, hgl]
    have hrange : (N : ℤ) - 2 ≤ 2 * i + ((n : ℤ) - 1) * st ∧
        2 * i + ((n : ℤ) - 1) * st ≤ (N : ℤ) - 1 := by
      have h1 := h2i.1
      have h2 := h2i.2
      rw [hneeddef] at h1 h2
      constructor <;> linarith
    have hmul1 := mul_le_mul_of_nonneg_right hrange.1 hp.le
    have hmul2 := mul_le_mul_of_nonneg_right hrange.2 hp.le
    have he1 : ((N : ℤ) - 2) * t_pitch = ((N : ℤ) - 1) * t_pitch - t_pitch := by ring
    have he2 : (N : ℤ) * t_pitch = ((N : ℤ) - 1) * t_pitch + t_pitch := by ring
    have hkey : i * t_pitch + (i + ((n : ℤ) - 1) * st) * t_pitch =
        (2 * i + ((n : ℤ) - 1) * st) * t_pitch := by ring
    linarith [hbb.1, hbb.2]
  · have hg0 : (pySlice (gen_tracks t_offset t_pitch start stop) i (i + needed)
        st).getD 0 0 = b + i * t_pitch := by
      rw [hRmap, getD_map_range (by omega : 0 < n), helem 0 (by omega)]
      norm_num
    have hgl : (pySlice (gen_tracks t_offset t_pitch start stop) i (i + needed)
        st).getD (n - 1) 0 = b + (i + ((n : ℤ) - 1) * st) * t_pitch := by
      rw [hRmap, getD_map_range (by omega : n - 1 < n), helem (n - 1) (by omega)]
      congr 3
      push_cast [Nat.cast_sub (by omega : 1 ≤ n)]
      ring
    rw [hg0, hgl]
    have hrange : 2 * i + ((n : ℤ) - 1) * st ≤ (N : ℤ) - 1 := by
      have h1 := h2i.1
      rw [hneeddef] at h1
      linarith
    have hmul2 := mul_le_mul_of_nonneg_right hrange hp.le
    have hkey : i * t_pitch + (i + ((n : ℤ) - 1) * st) * t_pitch =
        (2 * i + ((n : ℤ) - 1) * st) * t_pitch := by ring
    linarith [hbb.2]

/-! ## Claim theorems -/

/-- C1 (counterexample): on the 4×2 grid with free modules A and B, both
2×1, the placer puts A at (0,0) but B at (16,0), not at (2,0): with
`grid.x = 4` the left half only has columns 0 and 1, and the right half
starts at the hardcoded column 16. -/
theorem c1_counterexample :
    placementTable (place_modules 4 2
        [⟨"A", none, none, 2, 1⟩, ⟨"B", none, none, 2, 1⟩]) =
      .ok [("A", (0, 0)), ("B", (16, 0))] ∧
    placementTable (place_modules 4 2
        [⟨"A", none, none, 2, 1⟩, ⟨"B", none, none, 2, 1⟩]) ≠
      .ok [("A", (0, 0)), ("B", (2, 0))] ∧
    ((16, 0) : ℕ × ℕ) ≠ (2, 0) := by
  refine ⟨by decide, by decide, by decide⟩

/-- C1 (amended): for a 4×2 grid and modules A (2×1) and B (2×1) with no
fixed coordinates, the placer places both in row-major scan order, A at
anchor (0,0), and B at (16,0): the first non-overlapping width-2 site
after A, which lies at the start of the right half since the left half of
a 4-column grid holds only columns 0 and 1. -/
theorem c1_placement :
    placementTable (place_modules 4 2
        [⟨"A", none, none, 2, 1⟩, ⟨"B", none, none, 2, 1⟩]) =
      .ok [("A", (0, 0)), ("B", (16, 0))] := by decide

/-- C3 (code bug): for a module with fixed `y = 0`, free `x`, on a fresh
4×2 grid, the anchor (0,0) is suitable, yet `_find_x_for_module` dies
with the `NameError` from its `return x, y` (no `y` is in scope), so
`_place_module` never records the module at (first suitable x, fixed y)
as the specification describes. -/
theorem c3_name_error :
    site_suitable (gen_grid 4 2) ⟨"M", none, some 0, 1, 1⟩ 0 0 = true ∧
    find_x_for_module 4 (gen_grid 4 2) ⟨"M", none, some 0, 1, 1⟩ 0 =
      .error .nameErrorY ∧
    place_module 4 2 ⟨[], gen_grid 4 2⟩ ⟨"M", none, some 0, 1, 1⟩ =
      .error .nameErrorY := by
  refine ⟨by decide, by decide, by decide⟩

/-- C7: pin-layout expansion emits, per entry in order, a single name for
a scalar, indices `n-1 … 0` for a bus of width `n`, indices
`o+len-1 … o` for a sub-range, and placeholder gaps for skips; in
particular `[("a",None), ("b",3), (None,2)]` expands to
`["a","b[2]","b[1]","b[0]",None,None]`. -/
theorem c7_expand :
    ply_expand [(some "a", .scalar), (some "b", .bus 3), (none, .bus 2)] =
      .ok [some "a", some "b[2]", some "b[1]", some "b[0]", none, none] ∧
    (∀ nm, ply_expand [(some nm, .scalar)] = .ok [some nm]) ∧
    (∀ nm k, ply_expand [(some nm, .bus k)] =
      .ok ((List.range k).reverse.map fun i => some (nm ++ "[" ++ toString i ++ "]"))) ∧
    (∀ nm o l, ply_expand [(some nm, .sub o l)] =
      .ok ((List.range l).reverse.map fun i =>
        some (nm ++ "[" ++ toString (o + i) ++ "]"))) ∧
    (∀ k, ply_expand [((none : Option String), .bus k)] =
      .ok (List.replicate k none)) ∧
    (∀ o l, ply_expand [((none : Option String), .sub o l)] =
      .ok (List.replicate l none)) := by
  refine ⟨by decide, ?_, ?_, ?_, ?_, ?_⟩ <;> intros <;> simp [ply_expand, expandEntry]

/-- C6: with no fixed step, the distribution fails (with the saturation
error, the only error it raises) exactly when
`(candidate_count − 1) // (pin_count − 1)` is zero; in particular 5 pins
on a 4-track candidate list fail. -/
theorem c6_saturation :
    (∀ (t_offset t_pitch : ℤ) (n : ℕ) (start stop : ℤ), 0 < t_pitch → 2 ≤ n →
      (ply_distribute t_offset t_pitch n start stop 0 = .error .saturation ↔
        (((gen_tracks t_offset t_pitch start stop).length : ℤ) - 1).fdiv
          ((n : ℤ) - 1) = 0)) ∧
    (gen_tracks 0 1 0 4).length = 4 ∧
    ply_distribute 0 1 5 0 4 0 = .error .saturation := by
  refine ⟨?_, by decide, by decide⟩
  intro t_offset t_pitch n start stop _ _
  simp only [ply_distribute]
  rw [if_pos (le_refl (0 : ℤ))]
  split
  · rename_i h
    simp [h]
  · rename_i h
    simp [h]

/-- C6 (witness): the 5-pins-on-4-tracks instance of the saturation
characterization. -/
theorem c6_witness :
    (0 : ℤ) < 1 ∧ 2 ≤ 5 ∧
    (ply_distribute 0 1 5 0 4 0 = .error .saturation ↔
      (((gen_tracks 0 1 0 4).length : ℤ) - 1).fdiv (((5 : ℕ) : ℤ) - 1) = 0) := by
  exact ⟨by decide, by decide, c6_saturation.1 0 1 5 0 4 (by decide) (by decide)⟩

/-- C4 (counterexample): for `offset 0`, `pitch 2`, interval `[1, 5)`,
the candidate list is `[0, 2, 4]`: its first element 0 is the grid line
at or BEFORE start, and is strictly less than `start = 1`, so the first
candidate is not "at or after start". -/
theorem c4_counterexample :
    gen_tracks 0 2 1 5 = [0, 2, 4] ∧
    (gen_tracks 0 2 1 5).head? = some 0 ∧
    ((0 : ℤ) < 1) := by
  refine ⟨by decide, by decide, by decide⟩

/-- C4 (amended): the candidate list starts at the LAST routing-grid line
at or before `start`, computed as
`floor((start−offset)/pitch)·pitch + offset` — a value that is at most
`start` and exceeds `start − pitch`, so it can be less than `start` —
and then steps by `pitch` while the coordinate is below `end`. -/
theorem c4_track_enumeration :
    ∀ (t_offset t_pitch start stop : ℤ), 0 < t_pitch →
      ((gen_tracks t_offset t_pitch start stop).head? =
        if (start - t_offset).fdiv t_pitch * t_pitch + t_offset < stop then
          some ((start - t_offset).fdiv t_pitch * t_pitch + t_offset)
        else none) ∧
      (start - t_offset).fdiv t_pitch * t_pitch + t_offset ≤ start ∧
      start - t_pitch < (start - t_offset).fdiv t_pitch * t_pitch + t_offset ∧
      (∀ x ∈ gen_tracks t_offset t_pitch start stop, x < stop) ∧
      stop ≤ (start - t_offset).fdiv t_pitch * t_pitch + t_offset +
        ((gen_tracks t_offset t_pitch start stop).length : ℤ) * t_pitch ∧
      (∀ k : ℕ, k + 1 < (gen_tracks t_offset t_pitch start stop).length →
        (gen_tracks t_offset t_pitch start stop).getD (k + 1) 0 =
          (gen_tracks t_offset t_pitch start stop).getD k 0 + t_pitch) := by
  intro t_offset t_pitch start stop hp
  have hbid : (start - t_offset).fdiv t_pitch * t_pitch + t_offset =
      track_base t_offset t_pitch start := rfl
  have hbb := @track_base_bounds t_offset t_pitch start hp
  have hcb := @track_count_bounds t_offset t_pitch start stop hp
  rw [hbid]
  refine ⟨?_, hbb.2, hbb.1, ?_, ?_, ?_⟩
  · rcases hL : track_count t_offset t_pitch start stop with _ | L2
    · have hnone : (gen_tracks t_offset t_pitch start stop).head? = none := by
        unfold gen_tracks
        rw [hL]
        rfl
      rw [hnone, if_neg]
      intro hlt
      have := hcb.2.2 hlt
      omega
    · have hsome : (gen_tracks t_offset t_pitch start stop).head? =
          some (track_base t_offset t_pitch start) := by
        unfold gen_tracks
        rw [hL, List.range_succ_eq_map]
        simp
      rw [hsome, if_pos]
      have h1 : 1 ≤ track_count t_offset t_pitch start stop := by omega
      have h2 := hcb.2.1 h1
      have h1z : (1 : ℤ) ≤ (track_count t_offset t_pitch start stop : ℤ) := by
        exact_mod_cast h1
      have h3 : (0 : ℤ) ≤
          ((track_count t_offset t_pitch start stop : ℤ) - 1) * t_pitch :=
        mul_nonneg (by linarith) hp.le
      linarith
  · intro x hx
    obtain ⟨k, hk, rfl⟩ := gen_tracks_mem.mp hx
    have h1 : 1 ≤ track_count t_offset t_pitch start stop := by omega
    have h2 := hcb.2.1 h1
    have hkle : (k : ℤ) ≤ (track_count t_offset t_pitch start stop : ℤ) - 1 := by
      have : (k : ℤ) < (track_count t_offset t_pitch start stop : ℤ) := by
        exact_mod_cast hk
      linarith
    have := mul_le_mul_of_nonneg_right hkle hp.le
    linarith
  · rw [gen_tracks_length]
    exact hcb.1
  · intro k hk1
    rw [gen_tracks_length] at hk1
    have hk : k < track_count t_offset t_pitch start stop := by omega
    rw [@gen_tracks_getD t_offset t_pitch start stop (k + 1) hk1,
      @gen_tracks_getD t_offset t_pitch start stop k hk]
    push_cast
    ring

/-- C4 (witness): concrete instance of the enumeration theorem at
`offset 0`, `pitch 2`, interval `[1, 5)`. -/
theorem c4_witness :
    (0 : ℤ) < 2 ∧
    (gen_tracks 0 2 1 5).head? =
      (if ((1 : ℤ) - 0).fdiv 2 * 2 + 0 < 5 then
        some (((1 : ℤ) - 0).fdiv 2 * 2 + 0) else none) := by
  exact ⟨by decide, (c4_track_enumeration 0 2 1 5 (by decide)).1⟩

/-- C2 (counterexample): for `offset 0`, `pitch 10`, interval `[9, 40)`,
3 pins and a computed step, the selected tracks are `[0, 10, 20]`: the
first coordinate 0 lies below `start = 9` (outside `[start, end)`), and
the window midpoint 10 is more than one pitch away from the interval
midpoint 24.5. -/
theorem c2_counterexample :
    ply_distribute 0 10 3 9 40 0 = .ok [0, 10, 20] ∧
    ¬ ((9 : ℤ) ≤ 0) ∧
    ¬ (|((0 : ℤ) + 20) - (9 + 40)| ≤ 2 * 10) := by
  refine ⟨by decide, by decide, by decide⟩

/-- C2 (witness): concrete instance of the distribution theorem for
`offset 0`, `pitch 1`, 2 pins, interval `[0, 4)`. -/
theorem c2_witness :
    (0 : ℤ) < 1 ∧
    1 ≤ (((gen_tracks 0 1 0 4).length : ℤ) - 1).fdiv (((2 : ℕ) : ℤ) - 1) ∧
    ∃ l, ply_distribute 0 1 2 0 4 0 = .ok l ∧ l.length = 2 := by
  obtain ⟨l, h1, h2, _⟩ := c2_distribution 0 1 2 0 4 (by decide) (by decide) (by decide)
  exact ⟨by decide, by decide, l, h1, h2⟩

/-- C10: with a fixed positive step and too few candidate tracks, the
distribution performs no saturation check: it succeeds, returns fewer
than `pin_count` coordinates, and the shortfall surfaces only in the
finalize length comparison. -/
theorem c10_fixed_step :
    ∀ (t_offset t_pitch : ℤ) (n : ℕ) (start stop s : ℤ),
      0 < t_pitch → 0 < s → 1 ≤ n →
      ((gen_tracks t_offset t_pitch start stop).length : ℤ) < ((n : ℤ) - 1) * s + 1 →
      ∃ l, ply_distribute t_offset t_pitch n start stop s = .ok l ∧
        l.length < n ∧
        ∀ pins : List (Option String), pins.length = n →
          ply_finalize pins l = .error .plyMismatch := by
  intro t_offset t_pitch n start stop s hp hs hn hshort
  have hok : ply_distribute t_offset t_pitch n start stop s =
      .ok (pySlice (gen_tracks t_offset t_pitch start stop)
        ((((gen_tracks t_offset t_pitch start stop).length : ℤ) -
          (((n : ℤ) - 1) * s + 1)).fdiv 2)
        ((((gen_tracks t_offset t_pitch start stop).length : ℤ) -
          (((n : ℤ) - 1) * s + 1)).fdiv 2 + (((n : ℤ) - 1) * s + 1)) s) := by
    simp only [ply_distribute]
    rw [if_neg (by linarith : ¬ s ≤ 0), if_neg (by linarith : ¬ s = 0)]
  set sl := pySlice (gen_tracks t_offset t_pitch start stop)
    ((((gen_tracks t_offset t_pitch start stop).length : ℤ) -
      (((n : ℤ) - 1) * s + 1)).fdiv 2)
    ((((gen_tracks t_offset t_pitch start stop).length : ℤ) -
      (((n : ℤ) - 1) * s + 1)).fdiv 2 + (((n : ℤ) - 1) * s + 1)) s with hsl
  have hcast : (((n - 1 : ℕ)) : ℤ) = (n : ℤ) - 1 := by
    push_cast [Nat.cast_sub hn]
    ring
  have hle : sl.length ≤ n - 1 := by
    rw [hsl]
    refine pySlice_length_le hs ?_
    rw [hcast]
    linarith
  have hlt : sl.length < n := by omega
  refine ⟨sl, hok, hlt, ?_⟩
  intro pins hpins
  unfold ply_finalize
  rw [if_pos (by omega : pins.length ≠ sl.length)]

/-- C10 (witness): 4 pins with fixed step 2 over the 4-track list of
`[0, 4)` at pitch 1: no error, a short result, and finalize rejects it. -/
theorem c10_witness :
    ∃ l, ply_distribute 0 1 4 0 4 2 = .ok l ∧ l.length < 4 ∧
      ply_finalize [some "w", some "x", some "y", some "z"] l =
        .error .plyMismatch := by
  obtain ⟨l, h1, h2, h3⟩ :=
    c10_fixed_step 0 1 4 0 4 2 (by decide) (by decide) (by decide) (by decide)
  exact ⟨l, h1, h2, h3 _ rfl⟩

/-- C5: for every module list whose placement succeeds, the recorded
modules have pairwise disjoint cell footprints, and every footprint cell
lies inside the initial grid cell set. -/
theorem c5_disjoint_footprints :
    ∀ (gx gy : ℕ) (mods : List ModuleSlot) (st' : PlacerState),
      place_modules gx gy mods = .ok st' →
      st'.grid.Pairwise (fun a b => Disjoint (entryFp a) (entryFp b)) ∧
      ∀ e ∈ st'.grid, entryFp e ⊆ gen_grid gx gy := by
  intro gx gy mods st' h
  have hinv := place_modules_inv h
  exact ⟨hinv.2.2, fun e he => (hinv.2.1 e he).1⟩

/-- C5 (witness): the two-module 4×2 run, with disjointness and
in-bounds checked through the theorem. -/
theorem c5_witness :
    ∃ st', place_modules 4 2
        [⟨"A", none, none, 2, 1⟩, ⟨"B", none, none, 2, 1⟩] = .ok st' ∧
      st'.grid.Pairwise (fun a b => Disjoint (entryFp a) (entryFp b)) ∧
      ∀ e ∈ st'.grid, entryFp e ⊆ gen_grid 4 2 := by
  have h : place_modules 4 2
      [⟨"A", none, none, 2, 1⟩, ⟨"B", none, none, 2, 1⟩] =
      .ok ⟨[((0, 0), ⟨"A", some 0, some 0, 2, 1⟩),
            ((16, 0), ⟨"B", some 16, some 0, 2, 1⟩)],
        (gen_grid 4 2 \ footprint 0 0 2 1) \ footprint 16 0 2 1⟩ := by decide
  exact ⟨_, h, (c5_disjoint_footprints 4 2 _ _ h).1,
    (c5_disjoint_footprints 4 2 _ _ h).2⟩

/-- C9: every successfully placed module of height 2 has an odd anchor
row, and a fully fixed module of height 2 at an even row always fails
with the placement error, whatever the state of the free set. -/
theorem c9_height2_odd_row :
    (∀ (gx gy : ℕ) (mods : List ModuleSlot) (st' : PlacerState),
      place_modules gx gy mods = .ok st' →
      ∀ e ∈ st'.grid, e.2.height = 2 → e.1.2 % 2 = 1) ∧
    (∀ (gx gy : ℕ) (st : PlacerState) (m : ModuleSlot) (px py : ℕ),
      m.pos_x = some px → m.pos_y = some py → m.height = 2 → py % 2 = 0 →
      place_module gx gy st m = .error (.cannotPlace m.name)) := by
  constructor
  · intro gx gy mods st' h e he hh
    exact ((place_modules_inv h).2.1 e he).2.2 (by omega)
  · intro gx gy st m px py hx hy hh hpy
    have hsf : site_suitable st.grid_free m px py = false := by
      cases hb : site_suitable st.grid_free m px py
      · rfl
      · have := site_suitable_odd hb (by omega)
        omega
    simp [place_module, hx, hy, hsf]

/-- C9 (witness): a 1×2 module auto-placed on the 4×4 grid lands on row
1, and a fully fixed 1×2 module at the even row 0 of a fresh 4×2 grid is
rejected. -/
theorem c9_witness :
    (∃ st', place_modules 4 4 [⟨"C", none, none, 1, 2⟩] = .ok st' ∧
      ∀ e ∈ st'.grid, e.2.height = 2 → e.1.2 % 2 = 1) ∧
    place_module 4 2 ⟨[], gen_grid 4 2⟩ ⟨"D", some 0, some 0, 1, 2⟩ =
      .error (.cannotPlace "D") := by
  constructor
  · have h : place_modules 4 4 [⟨"C", none, none, 1, 2⟩] =
        .ok ⟨[((0, 1), ⟨"C", some 0, some 1, 1, 2⟩)],
          gen_grid 4 4 \ footprint 0 1 1 2⟩ := by decide
    exact ⟨_, h, c9_height2_odd_row.1 4 4 _ _ h⟩
  · exact c9_height2_odd_row.2 4 2 ⟨[], gen_grid 4 2⟩
      ⟨"D", some 0, some 0, 1, 2⟩ 0 0 rfl rfl rfl rfl

/-- C8 (counterexample): two entries with the same name "a" expand to
width 2 with no skips, but finalizing against 2 tracks yields a mapping
with a single entry (the Python dict collapses the duplicate key), not
`W − #skips = 2` named pins. -/
theorem c8_counterexample :
    ply_expand [(some "a", .scalar), (some "a", .scalar)] =
      .ok [some "a", some "a"] ∧
    plyWidth [(some "a", WidthSpec.scalar), (some "a", WidthSpec.scalar)] = 2 ∧
    ([some "a", some "a"] : List (Option String)).count none = 0 ∧
    ply_finalize [some "a", some "a"] [0, 5] = .ok [("a", 5)] ∧
    ([("a", 5)] : List (String × ℤ)).length ≠ 2 - 0 := by
  refine ⟨by decide, by decide, by decide, by decide, by decide⟩

/-- C8 (amended): finalize fails exactly when the pin and track lists
differ in length; expansion of a layout of total width `W` has length
`W`; and on success with pairwise distinct expanded names, the result is
the positional zip with placeholders dropped, containing exactly
`W − #skips` entries (duplicate names would collapse in the dict). -/
theorem c8_finalize :
    (∀ (pins : List (Option String)) (tracks : List ℤ),
      ply_finalize pins tracks = .error .plyMismatch ↔
        pins.length ≠ tracks.length) ∧
    (∀ (ply : List PlyEntry) (pins : List (Option String)),
      ply_expand ply = .ok pins → pins.length = plyWidth ply) ∧
    (∀ (pins : List (Option String)) (tracks : List ℤ),
      pins.length = tracks.length → (pins.filterMap id).Nodup →
      ply_finalize pins tracks =
        .ok ((pins.zip tracks).filterMap fun pt => pt.1.map fun nm => (nm, pt.2)) ∧
      ((pins.zip tracks).filterMap fun pt => pt.1.map fun nm => (nm, pt.2)).length +
        pins.count none = pins.length) := by
  refine ⟨?_, ?_, ?_⟩
  · intro pins tracks
    unfold ply_finalize
    split
    · rename_i h
      simp [h]
    · rename_i h
      rw [not_ne_iff] at h
      simp [h]
  · intro ply pins h
    exact ply_expand_length h
  · intro pins tracks hlen hnd
    constructor
    · unfold ply_finalize
      rw [if_neg (by omega : ¬ pins.length ≠ tracks.length)]
      congr 1
      apply pyDict_eq_self
      rw [zip_filterMap_keys pins tracks hlen]
      exact hnd
    · have hkeys := zip_filterMap_keys pins tracks hlen
      have hlen2 : ((pins.zip tracks).filterMap fun pt =>
          pt.1.map fun nm => (nm, pt.2)).length = (pins.filterMap id).length := by
        have := congrArg List.length hkeys
        simpa using this
      rw [hlen2]
      exact filterMap_id_length pins

/-- C8 (witness): layout `[("a", scalar), (skip, bus 2)]` of width 3
finalized against 3 tracks keeps the single named pin. -/
theorem c8_witness :
    ((3 : ℕ) = plyWidth [(some "a", WidthSpec.scalar),
      ((none : Option String), WidthSpec.bus 2)]) ∧
    ply_finalize [some "a", none, none] [0, 2, 4] = .ok [("a", 0)] ∧
    ([("a", 0)] : List (String × ℤ)).length +
      ([some "a", none, none] : List (Option String)).count none = 3 := by
  have h2 := c8_finalize.2.1 [(some "a", WidthSpec.scalar),
    ((none : Option String), WidthSpec.bus 2)] [some "a", none, none] (by decide)
  have h3 := c8_finalize.2.2 [some "a", none, none] [0, 2, 4] (by decide) (by decide)
  refine ⟨h2, ?_, ?_⟩
  · rw [h3.1]
    decide
  · have h4 := h3.2
    norm_num at h4 ⊢
    exact h4

end TT
